import Mathlib

/-!
Shallow embedding of the block manager (blockmanager.go) of the btcd
repository, together with theorems settling the frozen claims about it.

Modelling conventions:
- Block hashes (btcwire.ShaHash) are modelled as natural numbers; the zero
  hash is 0.
- A peer object (a Go pointer) is modelled as a record with a distinguishing
  "pid" field, the announced last block height ("lastBlock", an int32 in the
  source) and the advertised service flags; pointer equality between live
  peers is modelled as record equality with distinct pids.
- Collaborator calls that can fail (db.NewestSha, LatestBlockLocator) are
  supplied as Option-valued fields of an environment record; collaborator
  predicates (HaveInventory, IsKnownOrphan, GetOrphanRoot,
  BlockLocatorFromHash, ProcessBlock) are function fields.
- Messages pushed to a peer (PushGetBlocksMsg, QueueMessage of a getdata)
  are collected in output lists, in program order.
- The Go map blockPeer is modelled as a key-unique association list with
  lookup / insert / erase mirroring Go map indexing, assignment and delete.
-/

namespace BM

/-- Block hashes (btcwire.ShaHash), modelled as natural numbers. -/
abbrev ShaHash := Nat

/-- The all-zero hash used as the "no stop hash" sentinel (zeroHash). -/
def zeroHash : ShaHash := 0

/-- btcwire inventory vector types.  Only InvVect_Block is acted upon. -/
inductive InvType where
  | Error : InvType
  | Tx : InvType
  | Block : InvType
deriving DecidableEq, Repr

/-- btcwire.InvVect: a typed inventory identifier.  The Go field "Type" is
named "typ" here because Type is a reserved word in Lean. -/
structure InvVect where
  typ : InvType
  hash : ShaHash
deriving DecidableEq, Repr

/-- A block locator: a sparse list of block hashes. -/
abbrev BlockLocator := List ShaHash

/-- An outbound message pushed onto a peer session:
either PushGetBlocksMsg(locator, stopHash) or QueueMessage of a
btcwire.MsgGetData holding the listed inventory vectors. -/
inductive OutMsg where
  | getBlocks : BlockLocator → ShaHash → OutMsg
  | getData : List InvVect → OutMsg
deriving DecidableEq, Repr

/-- A peer session as seen by the sync coordinator: a distinguishing id, the
announced last block height (int32 field lastBlock) and the service flags. -/
structure Peer where
  pid : Nat
  lastBlock : Int
  services : Nat
deriving DecidableEq, Repr

/-- btcwire.SFNodeNetwork service flag bit. -/
def SFNodeNetwork : Nat := 1

/-- Reduction of an Int to int32 range, modelling the Go conversion
int32(height) applied to the int64 height in startSync. -/
def toInt32 (n : Int) : Int := (n + 2 ^ 31) % 2 ^ 32 - 2 ^ 31

/-- Environment for startSync: the fallible collaborator calls it makes.
NewestSha is db.NewestSha() returning (sha, height) on success;
LatestBlockLocator is blockChain.LatestBlockLocator(). -/
structure ChainEnv where
  NewestSha : Option (ShaHash × Int)
  LatestBlockLocator : Option BlockLocator

/-- Result of a sync-coordinator operation: the candidate list afterwards,
the sync peer afterwards, and the PushGetBlocksMsg calls made (receiver
peer together with the message), in order. -/
structure SyncResult where
  peers : List Peer
  syncPeer : Option Peer
  pushed : List (Peer × OutMsg)
deriving DecidableEq, Repr

/-- The candidate scan loop of startSync:

  for e := peers.Front(); e != nil; e = e.Next() {
      p := e.Value.(*peer)
      if p.lastBlock <= int32(height) { peers.Remove(e); continue }
      bestPeer = p
  }

Go container/list.Remove(e) sets e.next and e.list to nil on the removed
element, so the post statement e = e.Next() evaluates to nil right after a
removal and the loop terminates there: at most the first stale candidate is
removed, and every element after it is neither examined nor removed.  When
no removal happens, bestPeer is overwritten on every non-stale element, so
it ends up holding the last examined candidate.  The function returns the
list contents after the scan and the final bestPeer. -/
def startSyncScan (height : Int) : List Peer → Option Peer → List Peer × Option Peer
  | [], bestPeer => ([], bestPeer)
  | p :: rest, bestPeer =>
    if p.lastBlock ≤ toInt32 height then
      (rest, bestPeer)
    else
      let r := startSyncScan height rest (some p)
      (p :: r.1, r.2)

/-- startSync: returns immediately when a sync peer is active; aborts on
NewestSha failure; otherwise scans the candidate list, and when a bestPeer
was selected and LatestBlockLocator succeeds, pushes a getblocks message
(locator, zeroHash) to it and records it as the sync peer. -/
def startSync (env : ChainEnv) (syncPeer : Option Peer) (peers : List Peer) : SyncResult :=
  match syncPeer with
  | some sp => ⟨peers, some sp, []⟩
  | none =>
    match env.NewestSha with
    | none => ⟨peers, none, []⟩
    | some (_, height) =>
      let scanned := startSyncScan height peers none
      match scanned.2 with
      | none => ⟨scanned.1, none, []⟩
      | some bestPeer =>
        match env.LatestBlockLocator with
        | none => ⟨scanned.1, none, []⟩
        | some locator =>
          ⟨scanned.1, some bestPeer, [(bestPeer, OutMsg.getBlocks locator zeroHash)]⟩

/-- handleNewCandidateMsg: ignored while shutting down or when the peer is
not a full node; otherwise the peer is appended to the candidate list
(peers.PushBack(p)) and startSync runs. -/
def handleNewCandidateMsg (env : ChainEnv) (shutdown : Bool) (syncPeer : Option Peer)
    (peers : List Peer) (p : Peer) : SyncResult :=
  if shutdown then ⟨peers, syncPeer, []⟩
  else if p.services &&& SFNodeNetwork ≠ SFNodeNetwork then ⟨peers, syncPeer, []⟩
  else startSync env syncPeer (peers ++ [p])

/-- The removal loop of handleDonePeerMsg: remove the first list entry whose
value equals the given peer (the loop breaks right after Remove). -/
def removeFirstMatch : List Peer → Peer → List Peer
  | [], _ => []
  | x :: xs, p => if x = p then xs else x :: removeFirstMatch xs p

/-- handleDonePeerMsg: removes the first candidate entry equal to the peer;
when the departing peer is the current sync peer, clears the sync peer and
runs startSync on the remaining candidates. -/
def handleDonePeerMsg (env : ChainEnv) (syncPeer : Option Peer)
    (peers : List Peer) (p : Peer) : SyncResult :=
  let peers' := removeFirstMatch peers p
  if syncPeer = some p then startSync env none peers'
  else ⟨peers', syncPeer, []⟩

/-! Concrete inputs used by the startSync evaluations. -/

/-- Environment whose height lookup yields height 0 and whose locator call
succeeds with a genesis-only locator. -/
def envSync0 : ChainEnv := ⟨some (0, 0), some [0]⟩

/-- A stale candidate: announced height 0, not ahead of local height 0. -/
def peerStale : Peer := ⟨0, 0, 1⟩

/-- A second stale candidate, also announcing height 0. -/
def peerStale2 : Peer := ⟨2, 0, 1⟩

/-- A candidate ahead of local height 0 (announced height 5). -/
def peerAhead : Peer := ⟨1, 5, 1⟩

/-- A candidate ahead of local height 0 (announced height 2). -/
def peerA : Peer := ⟨3, 2, 1⟩

/-- A second candidate ahead of local height 0 (announced height 3). -/
def peerB : Peer := ⟨4, 3, 1⟩

/-- C1: with local best height 0 and candidates [peerStale, peerAhead], the
removal of the stale first candidate terminates the scan (the removed list
element has a nil next pointer), so startSync records no sync peer and
pushes no getblocks message even though peerAhead remains in the candidate
list with an announced height above the local height.  This contradicts the
claim that either a sync peer is recorded with a getblocks pushed, or the
remaining candidates are all behind. -/
theorem startSync_stale_blocks_selection :
    (startSync envSync0 none [peerStale, peerAhead]).syncPeer = none ∧
    (startSync envSync0 none [peerStale, peerAhead]).pushed = [] ∧
    (startSync envSync0 none [peerStale, peerAhead]).peers = [peerAhead] ∧
    toInt32 0 < peerAhead.lastBlock := by decide

/-- C2: with local best height 0 and candidates [peerStale, peerStale2],
both of announced height 0, startSync removes only the first stale
candidate: the scan stops at the removal, so peerStale2, although its
announced height is not above the local height, survives the selection
pass, contradicting the claim that every such peer is removed. -/
theorem startSync_leaves_second_stale :
    (startSync envSync0 none [peerStale, peerStale2]).peers = [peerStale2] ∧
    (startSync envSync0 none [peerStale, peerStale2]).syncPeer = none ∧
    peerStale2.lastBlock ≤ toInt32 0 := by decide

/-- C3: with local best height 0 and two remaining candidates peerA and
peerB, both ahead of the local height, startSync records the last remaining
candidate (peerB) as the sync peer, not the first (peerA): the assignment
bestPeer = p runs on every non-stale iteration, so the last one wins,
contradicting the claimed first-remaining-candidate selection. -/
theorem startSync_picks_last_candidate :
    (startSync envSync0 none [peerA, peerB]).syncPeer = some peerB ∧
    peerA ≠ peerB ∧
    toInt32 0 < peerA.lastBlock ∧
    toInt32 0 < peerB.lastBlock := by decide

/-! Inventory reconciler: handleInvMsg. -/

/-- Environment for handleInvMsg: the chain-engine calls it makes.
HaveInventory, IsKnownOrphan, GetOrphanRoot and BlockLocatorFromHash are
infallible queries; LatestBlockLocator can fail. -/
structure InvEnv where
  HaveInventory : InvVect → Bool
  IsKnownOrphan : ShaHash → Bool
  GetOrphanRoot : ShaHash → ShaHash
  LatestBlockLocator : Option BlockLocator
  BlockLocatorFromHash : ShaHash → BlockLocator

/-- The per-peer state touched by handleInvMsg: the known-inventory cache
(addKnownInventory appends to it) and the per-peer request queue. -/
structure PeerState where
  knownInventory : List InvVect
  requestQueue : List InvVect
deriving DecidableEq, Repr

/-- btcwire.MaxInvPerMsg: the most inventory vectors one message may carry. -/
def MaxInvPerMsg : Nat := 50000

/-- The index of the final block-typed entry of the inventory list, or -1
when there is none.  The Go loop scans from the end and stops at the first
block-typed entry; this forward recursion prefers the result found in the
tail, which is the same entry.  The first argument is the index of the head
of the remaining list. -/
def lastBlockIndexFrom : Nat → List InvVect → Int
  | _, [] => -1
  | i, iv :: rest =>
    let r := lastBlockIndexFrom (i + 1) rest
    if r ≠ -1 then r
    else if iv.typ = InvType.Block then (i : Int) else -1

/-- Index of the last block-typed entry of the list, or -1 (lastBlock). -/
def lastBlockIndex (invVects : List InvVect) : Int := lastBlockIndexFrom 0 invVects

/-- The body of the inventory scan loop of handleInvMsg for one entry iv at
index i.  Block-typed entries are recorded as known inventory; entries the
chain does not have are appended to the request queue; entries that are
known orphans trigger a getblocks from the latest locator to the orphan
root (skipped when the locator lookup fails); an already-possessed final
block entry triggers a getblocks from a locator of its own hash to the zero
stop hash.  Non-block entries are ignored.  Returns the updated peer state
and the messages pushed for this entry. -/
def handleInvVect (env : InvEnv) (lastBlock : Int) (i : Nat) (iv : InvVect)
    (ps : PeerState) : PeerState × List OutMsg :=
  match iv.typ with
  | InvType.Block =>
    let ps1 : PeerState := { ps with knownInventory := ps.knownInventory ++ [iv] }
    if env.HaveInventory iv = false then
      ({ ps1 with requestQueue := ps1.requestQueue ++ [iv] }, [])
    else if env.IsKnownOrphan iv.hash = true then
      match env.LatestBlockLocator with
      | none => (ps1, [])
      | some locator => (ps1, [OutMsg.getBlocks locator (env.GetOrphanRoot iv.hash)])
    else if (i : Int) = lastBlock then
      (ps1, [OutMsg.getBlocks (env.BlockLocatorFromHash iv.hash) zeroHash])
    else (ps1, [])
  | _ => (ps, [])

/-- The inventory scan loop (for i, iv := range invVects), starting at
index i, threading the peer state and concatenating pushed messages. -/
def processInvVects (env : InvEnv) (lastBlock : Int) :
    Nat → List InvVect → PeerState → PeerState × List OutMsg
  | _, [], ps => (ps, [])
  | i, iv :: rest, ps =>
    let r1 := handleInvVect env lastBlock i iv ps
    let r2 := processInvVects env lastBlock (i + 1) rest r1.1
    (r2.1, r1.2 ++ r2.2)

/-- The drain loop of handleInvMsg: repeatedly take the front of the
request queue into the getdata message and remove it, stopping once
numRequested reaches MaxInvPerMsg (the counter is incremented after each
take, and the loop breaks when it is at least the maximum).  Returns the
getdata contents and the remaining queue. -/
def drainRequestQueue : Nat → List InvVect → List InvVect × List InvVect
  | _, [] => ([], [])
  | numRequested, iv :: rest =>
    if numRequested + 1 ≥ MaxInvPerMsg then ([iv], rest)
    else
      let r := drainRequestQueue (numRequested + 1) rest
      (iv :: r.1, r.2)

/-- handleInvMsg: compute the last block-typed index, run the scan loop over
all entries, then drain the request queue into a single getdata message,
which is queued to the peer only when nonempty. -/
def handleInvMsg (env : InvEnv) (invVects : List InvVect) (ps : PeerState) :
    PeerState × List OutMsg :=
  let lastBlock := lastBlockIndex invVects
  let r := processInvVects env lastBlock 0 invVects ps
  let d := drainRequestQueue 0 r.1.requestQueue
  let ps2 : PeerState := { r.1 with requestQueue := d.2 }
  if d.1.length > 0 then (ps2, r.2 ++ [OutMsg.getData d.1]) else (ps2, r.2)

/-- The request queue of the peer right after the scan loop of
handleInvMsg, before the drain into the getdata message. -/
def postScanQueue (env : InvEnv) (invVects : List InvVect) (ps : PeerState) : List InvVect :=
  (processInvVects env (lastBlockIndex invVects) 0 invVects ps).1.requestQueue

/-- Whether the scan loop appends this entry to the request queue: it is
block-typed and the chain does not have it. -/
def wantsFetch (env : InvEnv) (iv : InvVect) : Bool :=
  match iv.typ with
  | InvType.Block => !env.HaveInventory iv
  | _ => false

/-- All inventory vectors carried by getdata messages in a message list. -/
def getDataInvs : List OutMsg → List InvVect
  | [] => []
  | OutMsg.getData l :: rest => l ++ getDataInvs rest
  | _ :: rest => getDataInvs rest

/-- Whether an outbound message is a getdata message. -/
def isGetData : OutMsg → Bool
  | OutMsg.getData _ => true
  | _ => false

/-! Structural lemmas about the inventory scan and drain. -/

/-- One scan step appends the entry to the request queue exactly when it is
block-typed and not already possessed; otherwise the queue is untouched. -/
theorem handleInvVect_requestQueue (env : InvEnv) (lastBlock : Int) (i : Nat) (iv : InvVect)
    (ps : PeerState) :
    (handleInvVect env lastBlock i iv ps).1.requestQueue
      = ps.requestQueue ++ (if wantsFetch env iv = true then [iv] else []) := by
  obtain ⟨t, h⟩ := iv
  cases t with
  | Error => simp [handleInvVect, wantsFetch]
  | Tx => simp [handleInvVect, wantsFetch]
  | Block =>
    cases hh : env.HaveInventory ⟨InvType.Block, h⟩ with
    | false => simp [handleInvVect, wantsFetch, hh]
    | true =>
      cases horph : env.IsKnownOrphan h with
      | false =>
        by_cases hi : (i : Int) = lastBlock <;>
          simp [handleInvVect, wantsFetch, hh, horph, hi]
      | true =>
        cases hl : env.LatestBlockLocator <;>
          simp [handleInvVect, wantsFetch, hh, horph, hl]

/-- The scan loop appends exactly the block-typed, not-possessed entries to
the request queue, in list order, and removes nothing from it. -/
theorem processInvVects_requestQueue (env : InvEnv) (lastBlock : Int) :
    ∀ (l : List InvVect) (i : Nat) (ps : PeerState),
      (processInvVects env lastBlock i l ps).1.requestQueue
        = ps.requestQueue ++ l.filter (wantsFetch env) := by
  intro l
  induction l with
  | nil => intro i ps; simp [processInvVects]
  | cons iv rest ih =>
    intro i ps
    simp only [processInvVects]
    rw [ih, handleInvVect_requestQueue, List.filter_cons]
    by_cases hf : wantsFetch env iv = true <;> simp [hf]

/-- No scan step ever emits a getdata message (only getblocks). -/
theorem handleInvVect_no_getData (env : InvEnv) (lastBlock : Int) (i : Nat) (iv : InvVect)
    (ps : PeerState) :
    ∀ m ∈ (handleInvVect env lastBlock i iv ps).2, isGetData m = false := by
  obtain ⟨t, h⟩ := iv
  cases t with
  | Error => simp [handleInvVect]
  | Tx => simp [handleInvVect]
  | Block =>
    cases hh : env.HaveInventory ⟨InvType.Block, h⟩ with
    | false => simp [handleInvVect, hh]
    | true =>
      cases horph : env.IsKnownOrphan h with
      | false =>
        by_cases hi : (i : Int) = lastBlock <;>
          simp [handleInvVect, hh, horph, hi, isGetData]
      | true =>
        cases hl : env.LatestBlockLocator <;>
          simp [handleInvVect, hh, horph, hl, isGetData]

/-- The scan loop as a whole emits no getdata message. -/
theorem processInvVects_no_getData (env : InvEnv) (lastBlock : Int) :
    ∀ (l : List InvVect) (i : Nat) (ps : PeerState),
      ∀ m ∈ (processInvVects env lastBlock i l ps).2, isGetData m = false := by
  intro l
  induction l with
  | nil => intro i ps m hm; simp [processInvVects] at hm
  | cons iv rest ih =>
    intro i ps m hm
    simp only [processInvVects] at hm
    rcases List.mem_append.mp hm with h1 | h2
    · exact handleInvVect_no_getData env lastBlock i iv ps m h1
    · exact ih (i + 1) _ m h2

/-- getDataInvs distributes over list append. -/
theorem getDataInvs_append (l1 l2 : List OutMsg) :
    getDataInvs (l1 ++ l2) = getDataInvs l1 ++ getDataInvs l2 := by
  induction l1 with
  | nil => rfl
  | cons m rest ih => cases m <;> simp [getDataInvs, ih]

/-- A message list without getdata messages carries no getdata inventory. -/
theorem getDataInvs_eq_nil (l : List OutMsg) (h : ∀ m ∈ l, isGetData m = false) :
    getDataInvs l = [] := by
  induction l with
  | nil => rfl
  | cons m rest ih =>
    cases m with
    | getBlocks loc stop =>
      simp only [getDataInvs]
      exact ih fun m hm => h m (List.mem_cons_of_mem _ hm)
    | getData l' =>
      have := h _ (List.mem_cons_self _ _)
      simp [isGetData] at this

/-- An already-possessed known-orphan block entry makes the scan loop push a
getblocks message from the latest locator to the orphan root. -/
theorem processInvVects_orphan_mem (env : InvEnv) (lastBlock : Int) (iv : InvVect)
    (loc : BlockLocator) (htyp : iv.typ = InvType.Block)
    (hhave : env.HaveInventory iv = true) (horph : env.IsKnownOrphan iv.hash = true)
    (hloc : env.LatestBlockLocator = some loc) :
    ∀ (l : List InvVect) (i : Nat) (ps : PeerState), iv ∈ l →
      OutMsg.getBlocks loc (env.GetOrphanRoot iv.hash)
        ∈ (processInvVects env lastBlock i l ps).2 := by
  intro l
  induction l with
  | nil => intro i ps hm; cases hm
  | cons a rest ih =>
    intro i ps hm
    simp only [processInvVects]
    rcases List.mem_cons.mp hm with rfl | hm'
    · apply List.mem_append_left
      obtain ⟨t, h⟩ := iv
      have ht : t = InvType.Block := htyp
      subst ht
      simp only [InvVect.hash] at horph hloc ⊢
      simp [handleInvVect, hhave, horph, hloc]
    · exact List.mem_append_right _ (ih (i + 1) _ hm')

/-- The drain loop takes exactly the first MaxInvPerMsg - n queue entries
and leaves the rest, when the running count n is below the maximum. -/
theorem drainRequestQueue_eq (q : List InvVect) :
    ∀ n, n < MaxInvPerMsg →
      drainRequestQueue n q = (q.take (MaxInvPerMsg - n), q.drop (MaxInvPerMsg - n)) := by
  induction q with
  | nil => intro n _; simp [drainRequestQueue]
  | cons iv rest ih =>
    intro n hn
    rw [drainRequestQueue]
    by_cases h : n + 1 ≥ MaxInvPerMsg
    · have h1 : MaxInvPerMsg - n = 1 := by omega
      simp [h, h1]
    · have h2 : n + 1 < MaxInvPerMsg := by omega
      have h3 : MaxInvPerMsg - n = (MaxInvPerMsg - (n + 1)) + 1 := by omega
      simp [h, ih (n + 1) h2, h3]

/-- Characterization of handleInvMsg in terms of the post-scan queue: the
final request queue is the post-scan queue past the first MaxInvPerMsg
entries, and the output is the scan-loop messages followed by one getdata
message holding the first MaxInvPerMsg post-scan queue entries, present
exactly when the post-scan queue is nonempty. -/
theorem handleInvMsg_spec (env : InvEnv) (invVects : List InvVect) (ps : PeerState) :
    (handleInvMsg env invVects ps).1.requestQueue
        = (postScanQueue env invVects ps).drop MaxInvPerMsg ∧
    (handleInvMsg env invVects ps).2
        = (processInvVects env (lastBlockIndex invVects) 0 invVects ps).2
            ++ (if postScanQueue env invVects ps = [] then []
                else [OutMsg.getData ((postScanQueue env invVects ps).take MaxInvPerMsg)]) := by
  have hd := drainRequestQueue_eq (postScanQueue env invVects ps) 0 (by decide)
  rw [Nat.sub_zero] at hd
  simp only [postScanQueue] at hd ⊢
  simp only [handleInvMsg, hd]
  rcases hE : (processInvVects env (lastBlockIndex invVects) 0 invVects ps).1.requestQueue
      with _ | ⟨a, q⟩
  · simp
  · have hM : 0 < MaxInvPerMsg := by decide
    constructor
    · simp [hM]
    · simp [hM]

/-- C4: a block-typed inventory entry the chain engine already has and
reports as a known orphan is never enqueued on the request queue by
handleInvMsg (so, as it was not queued beforehand, it appears in no getdata
message), and a getblocks message from the latest locator (here assumed to
be available) to the orphan root is pushed to the peer. -/
theorem handleInvMsg_known_orphan_getblocks
    (env : InvEnv) (invVects : List InvVect) (ps : PeerState) (iv : InvVect)
    (loc : BlockLocator)
    (hmem : iv ∈ invVects) (htyp : iv.typ = InvType.Block)
    (hhave : env.HaveInventory iv = true) (horph : env.IsKnownOrphan iv.hash = true)
    (hloc : env.LatestBlockLocator = some loc)
    (hq : iv ∉ ps.requestQueue) :
    iv ∉ (handleInvMsg env invVects ps).1.requestQueue ∧
    iv ∉ getDataInvs (handleInvMsg env invVects ps).2 ∧
    OutMsg.getBlocks loc (env.GetOrphanRoot iv.hash) ∈ (handleInvMsg env invVects ps).2 := by
  obtain ⟨hspec1, hspec2⟩ := handleInvMsg_spec env invVects ps
  have hq1 : iv ∉ postScanQueue env invVects ps := by
    rw [postScanQueue, processInvVects_requestQueue]
    intro hmem'
    rcases List.mem_append.mp hmem' with h1 | h2
    · exact hq h1
    · have hw := List.of_mem_filter h2
      obtain ⟨t, h⟩ := iv
      have ht : t = InvType.Block := htyp
      subst ht
      rw [wantsFetch] at hw
      simp only at hw
      rw [hhave] at hw
      simp at hw
  refine ⟨?_, ?_, ?_⟩
  · rw [hspec1]
    intro hmem'
    exact hq1 (List.drop_subset _ _ hmem')
  · rw [hspec2, getDataInvs_append]
    rw [getDataInvs_eq_nil _
      (processInvVects_no_getData env (lastBlockIndex invVects) invVects 0 ps)]
    intro hmem'
    simp only [List.nil_append] at hmem'
    by_cases hnil : postScanQueue env invVects ps = []
    · simp [hnil, getDataInvs] at hmem'
    · simp only [hnil, if_neg, getDataInvs, List.append_nil] at hmem'
      exact hq1 (List.take_subset _ _ hmem')
  · rw [hspec2]
    exact List.mem_append_left _
      (processInvVects_orphan_mem env (lastBlockIndex invVects) iv loc htyp hhave horph hloc
        invVects 0 ps hmem)

/-- Concrete inventory environment: hash 5 is possessed and a known orphan
with orphan root 3; the latest locator is [7]. -/
def envInvW : InvEnv :=
  ⟨fun iv => iv.hash == 5, fun h => h == 5, fun _ => 3, some [7], fun h => [h]⟩

/-- A block inventory vector for hash 5. -/
def ivW : InvVect := ⟨InvType.Block, 5⟩

/-- A peer state with empty known-inventory cache and request queue. -/
def psW : PeerState := ⟨[], []⟩

/-- C4 witness: the known-orphan theorem applied to the concrete
environment envInvW, inventory list [ivW] and empty peer state. -/
theorem handleInvMsg_known_orphan_getblocks_witness :
    ivW ∉ (handleInvMsg envInvW [ivW] psW).1.requestQueue ∧
    ivW ∉ getDataInvs (handleInvMsg envInvW [ivW] psW).2 ∧
    OutMsg.getBlocks [7] (envInvW.GetOrphanRoot ivW.hash) ∈ (handleInvMsg envInvW [ivW] psW).2 :=
  handleInvMsg_known_orphan_getblocks envInvW [ivW] psW ivW [7]
    (by decide) (by decide) (by decide) (by decide) rfl (by decide)

/-- C5: handleInvMsg drains at most MaxInvPerMsg entries of the post-scan
request queue into a single getdata message (in queue order), leaves
exactly the excess entries on the queue in order, and queues the getdata
message if and only if at least one entry was drained. -/
theorem handleInvMsg_drain_cap (env : InvEnv) (invVects : List InvVect) (ps : PeerState) :
    (handleInvMsg env invVects ps).1.requestQueue
        = (postScanQueue env invVects ps).drop MaxInvPerMsg ∧
    (handleInvMsg env invVects ps).2.filter isGetData
        = (if postScanQueue env invVects ps = [] then []
           else [OutMsg.getData ((postScanQueue env invVects ps).take MaxInvPerMsg)]) ∧
    ((postScanQueue env invVects ps).take MaxInvPerMsg).length ≤ MaxInvPerMsg := by
  obtain ⟨hspec1, hspec2⟩ := handleInvMsg_spec env invVects ps
  refine ⟨hspec1, ?_, ?_⟩
  · rw [hspec2, List.filter_append]
    rw [List.filter_eq_nil_iff.mpr ?side]
    case side =>
      intro m hm
      have := processInvVects_no_getData env (lastBlockIndex invVects) invVects 0 ps m hm
      simp [this]
    by_cases hnil : postScanQueue env invVects ps = [] <;> simp [hnil, isGetData]
  · simp [List.length_take]

/-! Block-origin map (blockPeer): a Go map from block hash to the supplying
peer, modelled as a key-unique association list from hashes to peer ids. -/

/-- Go map indexing blockPeer[hash]: the value stored under the key. -/
def mapLookup : List (ShaHash × Nat) → ShaHash → Option Nat
  | [], _ => none
  | kv :: rest, k => if kv.1 = k then some kv.2 else mapLookup rest k

/-- Go map delete(blockPeer, hash): drop every pair stored under the key
(at most one is present since insertion keeps keys unique). -/
def mapErase : List (ShaHash × Nat) → ShaHash → List (ShaHash × Nat)
  | [], _ => []
  | kv :: rest, k => if kv.1 = k then mapErase rest k else kv :: mapErase rest k

/-- Go map assignment blockPeer[hash] = peer: bind the key to the value,
replacing any previous binding. -/
def mapInsert (m : List (ShaHash × Nat)) (k : ShaHash) (v : Nat) : List (ShaHash × Nat) :=
  (k, v) :: mapErase m k

/-- After erasing a key, looking it up yields nothing. -/
theorem mapLookup_mapErase (m : List (ShaHash × Nat)) (k : ShaHash) :
    mapLookup (mapErase m k) k = none := by
  induction m with
  | nil => rfl
  | cons kv rest ih =>
    by_cases h : kv.1 = k <;> simp [mapErase, mapLookup, h, ih]

/-! Block ingest pipeline: handleBlockMsg and logBlockHeight. -/

/-- A bitcoin block as far as the block manager inspects it: its hash
(block.Sha()) and its transaction count (len(MsgBlock().Transactions)). -/
structure Block where
  sha : ShaHash
  numTx : Nat
deriving DecidableEq, Repr

/-- Environment for handleBlockMsg: ProcessBlock returns true on success
and false on a validation error; IsKnownOrphan is the chain-engine orphan
query; NewestSha is the fallible db height lookup; now is the current time
in seconds, compared against the last progress-log time. -/
structure BlockEnv where
  ProcessBlock : Block → Bool
  IsKnownOrphan : ShaHash → Bool
  NewestSha : Option (ShaHash × Int)
  now : Int

/-- The mutable block-manager state touched by the ingest pipeline: the
block-origin map and the progress counters with the last log time. -/
structure IngestState where
  blockPeer : List (ShaHash × Nat)
  receivedLogBlocks : Int
  receivedLogTx : Int
  lastBlockLogTime : Int
deriving DecidableEq, Repr

/-- logBlockHeight: always accumulate the block and transaction counters;
when at least 10 seconds have passed since the last log, emit the summary
line and reset the counters and the log time.  The height argument is only
printed, so it does not affect the state. -/
def logBlockHeight (now : Int) (numTx : Int) (_height : Int) (st : IngestState) : IngestState :=
  let st1 : IngestState :=
    { st with receivedLogBlocks := st.receivedLogBlocks + 1,
              receivedLogTx := st.receivedLogTx + numTx }
  if now - st1.lastBlockLogTime < 10 then st1
  else { st1 with receivedLogBlocks := 0, receivedLogTx := 0, lastBlockLogTime := now }

/-- handleBlockMsg: record the supplying peer in the block-origin map; run
ProcessBlock; on error remove the map entry and return; on success remove
the map entry unless the block is a known orphan, then (when the height
lookup succeeds) log the height and sync the db (the sync itself leaves the
modelled state unchanged). -/
def handleBlockMsg (env : BlockEnv) (st : IngestState) (block : Block) (pid : Nat) :
    IngestState :=
  let blockSha := block.sha
  let st1 : IngestState := { st with blockPeer := mapInsert st.blockPeer blockSha pid }
  if env.ProcessBlock block = false then
    { st1 with blockPeer := mapErase st1.blockPeer blockSha }
  else
    let st2 : IngestState :=
      if env.IsKnownOrphan blockSha = false then
        { st1 with blockPeer := mapErase st1.blockPeer blockSha }
      else st1
    match env.NewestSha with
    | none => st2
    | some (_, height) => logBlockHeight env.now (Int.ofNat block.numTx) height st2

/-- C7: when ProcessBlock fails, handleBlockMsg leaves the block-origin map
without an entry for the block hash and leaves both progress counters
unchanged. -/
theorem handleBlockMsg_error_clears_origin (env : BlockEnv) (st : IngestState)
    (block : Block) (pid : Nat) (herr : env.ProcessBlock block = false) :
    mapLookup (handleBlockMsg env st block pid).blockPeer block.sha = none ∧
    (handleBlockMsg env st block pid).receivedLogBlocks = st.receivedLogBlocks ∧
    (handleBlockMsg env st block pid).receivedLogTx = st.receivedLogTx := by
  have h1 : handleBlockMsg env st block pid
      = { st with blockPeer := mapErase (mapInsert st.blockPeer block.sha pid) block.sha } := by
    simp [handleBlockMsg, herr]
  rw [h1]
  exact ⟨mapLookup_mapErase _ _, rfl, rfl⟩

/-- A block environment whose validation always fails. -/
def envBlockFail : BlockEnv := ⟨fun _ => false, fun _ => false, some (0, 0), 0⟩

/-- An ingest state holding one origin-map entry and nonzero counters. -/
def stIngestW : IngestState := ⟨[(9, 4)], 2, 7, 0⟩

/-- C7 witness: the validation-error theorem applied to a concrete failing
environment, state, block and peer. -/
theorem handleBlockMsg_error_clears_origin_witness :
    mapLookup (handleBlockMsg envBlockFail stIngestW ⟨9, 3⟩ 4).blockPeer 9 = none ∧
    (handleBlockMsg envBlockFail stIngestW ⟨9, 3⟩ 4).receivedLogBlocks = 2 ∧
    (handleBlockMsg envBlockFail stIngestW ⟨9, 3⟩ 4).receivedLogTx = 7 :=
  handleBlockMsg_error_clears_origin envBlockFail stIngestW ⟨9, 3⟩ 4 rfl

/-! Notification dispatcher: handleNotifyMsg. -/

/-- A btcchain notification as the dispatcher distinguishes it: an orphan
block accepted into the orphan pool (data: the orphan hash) or a block
accepted into the main chain (data: the block). -/
inductive Notification where
  | NTOrphanBlock : ShaHash → Notification
  | NTBlockAccepted : Block → Notification
deriving DecidableEq, Repr

/-- Environment for handleNotifyMsg: the chain-engine orphan-root query and
the fallible latest-locator call. -/
structure NotifyEnv where
  GetOrphanRoot : ShaHash → ShaHash
  LatestBlockLocator : Option BlockLocator

/-- Result of handleNotifyMsg: the block-origin map afterwards, the
getblocks messages pushed (receiver peer id and message), whether the
no-peer warning was logged, and the inventory vectors relayed to all
peers. -/
structure NotifyResult where
  blockPeer : List (ShaHash × Nat)
  sent : List (Nat × OutMsg)
  warned : Bool
  relayed : List InvVect
deriving DecidableEq, Repr

/-- handleNotifyMsg.  For an accepted orphan: look up the supplying peer
under the orphan hash; if found, compute the orphan root, fetch the latest
locator (on failure: stop, leaving the map unchanged), push a getblocks
from the locator to the orphan root to that peer, and delete the map entry
keyed by the orphan root; if no peer is recorded, log a warning.  For an
accepted main-chain block: relay a block inventory vector for its hash. -/
def handleNotifyMsg (env : NotifyEnv) (blockPeer : List (ShaHash × Nat))
    (notification : Notification) : NotifyResult :=
  match notification with
  | Notification.NTOrphanBlock orphanHash =>
    match mapLookup blockPeer orphanHash with
    | some pid =>
      let orphanRoot := env.GetOrphanRoot orphanHash
      match env.LatestBlockLocator with
      | none => ⟨blockPeer, [], false, []⟩
      | some locator =>
        ⟨mapErase blockPeer orphanRoot,
         [(pid, OutMsg.getBlocks locator orphanRoot)], false, []⟩
    | none => ⟨blockPeer, [], true, []⟩
  | Notification.NTBlockAccepted block =>
    ⟨blockPeer, [], false, [⟨InvType.Block, block.sha⟩]⟩

/-- C6: on an orphan-accepted notification with the latest locator
available, if the origin map records a peer under the orphan hash then
exactly one getblocks message from the locator to the orphan root is sent
to that peer and the entry keyed by the orphan root is deleted, with no
warning; if no entry exists for the orphan hash, only a warning is logged
and nothing is sent or deleted. -/
theorem handleNotifyMsg_orphan_accepted (env : NotifyEnv) (blockPeer : List (ShaHash × Nat))
    (orphanHash : ShaHash) (locator : BlockLocator) (pid : Nat)
    (hloc : env.LatestBlockLocator = some locator) :
    (mapLookup blockPeer orphanHash = some pid →
      handleNotifyMsg env blockPeer (Notification.NTOrphanBlock orphanHash)
        = ⟨mapErase blockPeer (env.GetOrphanRoot orphanHash),
           [(pid, OutMsg.getBlocks locator (env.GetOrphanRoot orphanHash))], false, []⟩) ∧
    (mapLookup blockPeer orphanHash = none →
      handleNotifyMsg env blockPeer (Notification.NTOrphanBlock orphanHash)
        = ⟨blockPeer, [], true, []⟩) := by
  constructor <;> intro h <;> simp [handleNotifyMsg, h, hloc]

/-- A notification environment with orphan root 3 and latest locator [7]. -/
def envNotifyW : NotifyEnv := ⟨fun _ => 3, some [7]⟩

/-- C6 witness: the orphan-accepted theorem applied to a map holding peer 9
under hash 5 (found case) and to the empty map (missing case). -/
theorem handleNotifyMsg_orphan_accepted_witness :
    handleNotifyMsg envNotifyW [(5, 9)] (Notification.NTOrphanBlock 5)
      = ⟨[(5, 9)], [(9, OutMsg.getBlocks [7] 3)], false, []⟩ ∧
    handleNotifyMsg envNotifyW [] (Notification.NTOrphanBlock 5)
      = ⟨[], [], true, []⟩ :=
  ⟨(handleNotifyMsg_orphan_accepted envNotifyW [(5, 9)] 5 [7] 9 rfl).1 rfl,
   (handleNotifyMsg_orphan_accepted envNotifyW [] 5 [7] 9 rfl).2 rfl⟩

/-! Lifecycle manager: Start and Stop. -/

/-- The lifecycle fields of the block manager: the started and shutdown
flags, the number of worker goroutines the wait group is tracking, and
whether the quit channel has been closed. -/
structure Lifecycle where
  started : Bool
  shutdown : Bool
  wgCount : Nat
  quitClosed : Bool
deriving DecidableEq, Repr

/-- Start: a no-op when already started; otherwise add the three handler
goroutines to the wait group, launch them and set the started flag. -/
def Start (b : Lifecycle) : Lifecycle :=
  if b.started then b
  else { b with wgCount := b.wgCount + 3, started := true }

/-- Result of Stop: the state afterwards, whether this call closed the quit
channel, whether this call waited on the wait group, and the returned
error (always nil). -/
structure StopResult where
  state : Lifecycle
  closedQuit : Bool
  waited : Bool
  err : Option Unit
deriving DecidableEq, Repr

/-- Stop: when shutdown has already begun, log and return nil immediately,
closing nothing and waiting on nothing; otherwise set the shutdown flag,
close the quit channel, wait for the three handlers and return nil. -/
def Stop (b : Lifecycle) : StopResult :=
  if b.shutdown then ⟨b, false, false, none⟩
  else ⟨{ b with shutdown := true, quitClosed := true }, true, true, none⟩

/-- C8: Start on an already-started manager changes nothing and launches no
new tasks, and Stop on a manager already shutting down returns nil
immediately, without closing the quit channel again and without waiting on
the worker tasks. -/
theorem start_stop_idempotent (sh qc b : Bool) (wg : Nat) :
    Start ⟨true, sh, wg, qc⟩ = ⟨true, sh, wg, qc⟩ ∧
    Stop ⟨b, true, wg, qc⟩ = ⟨⟨b, true, wg, qc⟩, false, false, none⟩ := by
  constructor <;> simp [Start, Stop]

/-! QueueBlock and the block handler loop step. -/

/-- QueueBlock: when shutdown has begun, signal false on the supplying
peer's blockProcessed channel without enqueuing; otherwise append the
(block, peer) message to the block queue and signal nothing.  The second
component lists the blockProcessed signals sent (peer id, value). -/
def QueueBlock (shutdown : Bool) (blockQueue : List (Block × Nat)) (block : Block)
    (pid : Nat) : List (Block × Nat) × List (Nat × Bool) :=
  if shutdown then (blockQueue, [(pid, false)])
  else (blockQueue ++ [(block, pid)], [])

/-- One iteration of blockHandler on a dequeued block message: run
handleBlockMsg, then signal true on the supplying peer's blockProcessed
channel. -/
def blockHandlerStep (env : BlockEnv) (st : IngestState) (msg : Block × Nat) :
    IngestState × List (Nat × Bool) :=
  (handleBlockMsg env st msg.1 msg.2, [(msg.2, true)])

/-- C9: during shutdown, QueueBlock signals exactly one false to the
supplying peer and enqueues nothing; otherwise it enqueues the message
without signalling, and the block handler iteration that dequeues the
message signals exactly one true to that peer after handleBlockMsg, for
every environment, hence whether or not validation succeeded. -/
theorem queueBlock_signals_once (blockQueue : List (Block × Nat)) (block : Block)
    (pid : Nat) (env : BlockEnv) (st : IngestState) :
    QueueBlock true blockQueue block pid = (blockQueue, [(pid, false)]) ∧
    QueueBlock false blockQueue block pid = (blockQueue ++ [(block, pid)], []) ∧
    (blockHandlerStep env st (block, pid)).2 = [(pid, true)] ∧
    (blockHandlerStep env st (block, pid)).1 = handleBlockMsg env st block pid := by
  refine ⟨rfl, rfl, rfl, rfl⟩

/-! Candidate-list maintenance: duplicate candidates and done signals. -/

/-- The removal loop removes exactly the first occurrence of the peer when
the prefix before it contains no occurrence. -/
theorem removeFirstMatch_append (xs ys : List Peer) (p : Peer) (h : p ∉ xs) :
    removeFirstMatch (xs ++ p :: ys) p = xs ++ ys := by
  induction xs with
  | nil => simp [removeFirstMatch]
  | cons a rest ih =>
    have ha : ¬ a = p := by
      intro hc
      exact h (by simp [hc])
    simp only [List.cons_append, removeFirstMatch, ha, if_false, ite_false, List.append_eq]
    rw [ih fun hm => h (List.mem_cons_of_mem _ hm)]

/-- C10 counterexample: with local height 0, candidate list [peerStale,
peerStale] and peerStale as the current sync peer, a single done signal for
peerStale empties the candidate list: the removal loop removes the first
occurrence, and the startSync re-selection that follows (because the
departing peer was the sync peer) prunes the second stale occurrence too,
so handleDonePeerMsg removed two entries, not at most one. -/
theorem handleDonePeerMsg_removes_two_counterexample :
    (handleDonePeerMsg envSync0 (some peerStale) [peerStale, peerStale] peerStale).peers = [] ∧
    removeFirstMatch [peerStale, peerStale] peerStale = [peerStale] := by decide

/-- C10 amended: the removal loop of handleDonePeerMsg removes exactly the
first candidate entry equal to the departing peer, and when that peer is
not the current sync peer nothing else is removed; handleNewCandidateMsg
appends a qualifying full-node peer unconditionally (here while another
sync peer is active, so startSync returns at once), with no duplicate
check; hence a peer signalled as a candidate twice occupies two entries and
a single done signal for it, received while it is not the sync peer, leaves
the second occurrence in the list.  (When the departing peer is the sync
peer, the startSync re-selection may prune further stale candidates.) -/
theorem handleDonePeer_first_occurrence (env : ChainEnv) (syncPeer : Option Peer)
    (peers xs ys : List Peer) (p q : Peer)
    (hsp : syncPeer ≠ some p) (hsvc : p.services &&& SFNodeNetwork = SFNodeNetwork)
    (hnx : p ∉ xs) :
    (handleDonePeerMsg env syncPeer peers p).peers = removeFirstMatch peers p ∧
    removeFirstMatch (xs ++ p :: ys) p = xs ++ ys ∧
    (handleNewCandidateMsg env false (some q) peers p).peers = peers ++ [p] ∧
    (handleDonePeerMsg env syncPeer (xs ++ p :: p :: ys) p).peers = xs ++ p :: ys := by
  refine ⟨?_, removeFirstMatch_append xs ys p hnx, ?_, ?_⟩
  · simp [handleDonePeerMsg, hsp]
  · simp [handleNewCandidateMsg, hsvc, startSync]
  · have h4 : removeFirstMatch (xs ++ p :: p :: ys) p = xs ++ p :: ys :=
      removeFirstMatch_append xs (p :: ys) p hnx
    simp [handleDonePeerMsg, hsp, h4]

/-- C10 witness: the amended theorem applied with peerA as the twice-added
candidate, peerB as the active sync peer, an empty prefix and a one-peer
suffix. -/
theorem handleDonePeer_first_occurrence_witness :
    (handleDonePeerMsg envSync0 (some peerB) [peerA, peerB] peerA).peers
        = removeFirstMatch [peerA, peerB] peerA ∧
    removeFirstMatch ([] ++ peerA :: [peerB]) peerA = [] ++ [peerB] ∧
    (handleNewCandidateMsg envSync0 false (some peerB) [peerA, peerB] peerA).peers
        = [peerA, peerB] ++ [peerA] ∧
    (handleDonePeerMsg envSync0 (some peerB) ([] ++ peerA :: peerA :: [peerB]) peerA).peers
        = [] ++ peerA :: [peerB] :=
  handleDonePeer_first_occurrence envSync0 (some peerB) [peerA, peerB] [] [peerB] peerA peerB
    (by decide) (by decide) (by decide)

end BM
